import Mathlib

/-!
Shallow embedding of the camera orientation subsystem of the renderer
(`src/types/camera.rs`), together with the input mapper and the fixed
clip-space remap matrix.  Machine `f32` arithmetic is modelled by exact
real arithmetic: `f32::signum` becomes `signumR` (with `signumR 0 = 1`,
matching `f32::signum` on positive zero), `f32::rem_euclid` becomes
`remEuclid`, and the trigonometric and square-root functions are the
real ones.  Division by an exactly zero magnitude is a singularity of
the source; the unguarded model uses Lean's total division there, and
`recalculate_upChecked` makes every such division explicit by returning
`none` when a denominator is exactly zero.
-/

open Real

namespace Renderer

/-- Vector of three scalars, modelling `cgmath::Vector3<f32>`. -/
@[ext]
structure Vec3 where
  x : ℝ
  y : ℝ
  z : ℝ

instance : Add Vec3 := ⟨fun a b => ⟨a.x + b.x, a.y + b.y, a.z + b.z⟩⟩

instance : Sub Vec3 := ⟨fun a b => ⟨a.x - b.x, a.y - b.y, a.z - b.z⟩⟩

instance : Neg Vec3 := ⟨fun a => ⟨-a.x, -a.y, -a.z⟩⟩

instance : SMul ℝ Vec3 := ⟨fun c a => ⟨c * a.x, c * a.y, c * a.z⟩⟩

/-- Dot product, as in `cgmath::InnerSpace::dot`. -/
def Vec3.dot (a b : Vec3) : ℝ :=
  a.x * b.x + a.y * b.y + a.z * b.z

/-- Cross product, as in `cgmath::Vector3::cross`. -/
def Vec3.cross (a b : Vec3) : Vec3 :=
  ⟨a.y * b.z - a.z * b.y, a.z * b.x - a.x * b.z, a.x * b.y - a.y * b.x⟩

/-- Euclidean magnitude, as in `cgmath::InnerSpace::magnitude`. -/
noncomputable def Vec3.magnitude (a : Vec3) : ℝ :=
  Real.sqrt (a.dot a)

/-- Normalization `self * (1 / magnitude)`, as in `cgmath::InnerSpace::normalize`. -/
noncomputable def Vec3.normalize (a : Vec3) : Vec3 :=
  (1 / a.magnitude) • a

/-- Model of `f32::signum` on non-NaN input: `1` for nonnegative input
(`f32::signum` returns `1.0` on positive zero), `-1` for negative input. -/
noncomputable def signumR (a : ℝ) : ℝ :=
  if a < 0 then -1 else 1

/-- Model of `f32::rem_euclid a b` for a positive modulus `b`:
the representative of `a` modulo `b` lying in `[0, b)`. -/
noncomputable def remEuclid (a b : ℝ) : ℝ :=
  a - b * ⌊a / b⌋

/-- Camera state, modelling `struct Camera` (src/types/camera.rs lines 22-34). -/
@[ext]
structure Camera where
  eye : Vec3
  target : Vec3
  up : Vec3
  aspect : ℝ
  fovy : ℝ
  znear : ℝ
  zfar : ℝ
  rotation : Vec3

/-- Controller state, modelling `struct CameraController` (lines 71-82). -/
@[ext]
structure CameraController where
  speed : ℝ
  is_forward_pressed : Bool
  is_backward_pressed : Bool
  is_left_pressed : Bool
  is_right_pressed : Bool
  is_up_pressed : Bool
  is_down_pressed : Bool
  is_zcw_pressed : Bool
  is_zccw_pressed : Bool
  is_debug_pressed : Bool

/-- Constructor `CameraController::new` (lines 85-98): all intents start unpressed. -/
def CameraController.new (speed : ℝ) : CameraController :=
  ⟨speed, false, false, false, false, false, false, false, false, false⟩

/-- The forward vector the source rebuilds at lines 190-194 of `update_camera`:
spherical parametrization from the magnitude and the pitch (`rotation.x`)
and yaw (`rotation.y`) angles. -/
noncomputable def forwardVec (forward_mag pitch yaw : ℝ) : Vec3 :=
  ⟨forward_mag * Real.cos pitch * Real.cos yaw,
   forward_mag * Real.sin pitch,
   forward_mag * Real.cos pitch * Real.sin yaw⟩

/-- Provisional right vector of `recalculate_up` (lines 210-214): the normalized
cross product of forward with the world up `(0,1,0)`, with the octant sign
correction applied to its x and z components. -/
noncomputable def rightVec (forward : Vec3) : Vec3 :=
  let r := (forward.cross ⟨0, 1, 0⟩).normalize
  ⟨|r.x| * signumR forward.z, r.y, |r.z| * -signumR forward.x⟩

/-- Provisional up vector of `recalculate_up` (lines 217-220): the normalized
cross product of forward with the corrected right vector, with the octant sign
correction applied to all three components. -/
noncomputable def upProvisional (forward : Vec3) : Vec3 :=
  let u := (forward.cross (rightVec forward)).normalize
  ⟨|u.x| * signumR forward.x, |u.y|, |u.z| * signumR forward.z⟩

/-- The pitch classification condition of lines 225-226: the pitch reduced to
`[0, 2π)` by `rem_euclid` falls in `(0.25π, 0.5π]` or in `[0.75π, 1.5π)`. -/
noncomputable def flipCond (rotx : ℝ) : Prop :=
  let camera_rotation_x := remEuclid rotx (2 * π)
  (camera_rotation_x > 0.25 * π ∧ camera_rotation_x ≤ 0.5 * π) ∨
    (camera_rotation_x ≥ 0.75 * π ∧ camera_rotation_x < 1.5 * π)

open Classical in
/-- The provisional up vector after the conditional whole-vector negation of
lines 225-226 (`up *= -1.0`). -/
noncomputable def upFlipped (forward : Vec3) (rotx : ℝ) : Vec3 :=
  if flipCond rotx then (-1 : ℝ) • upProvisional forward else upProvisional forward

/-- Rotation of a vector `v` around `forward` by the roll angle, exactly as the
source performs it for `right` (lines 231-240) and for `up` (lines 243-251):
decompose into parallel and orthogonal parts, rotate the orthogonal part in
the plane spanned by it and `w = forward × orthogonal`, recombine. -/
noncomputable def rollRotate (forward v : Vec3) (sin_z cos_z : ℝ) : Vec3 :=
  let forward_dot := forward.dot forward
  let parallel := ((v.dot forward) / forward_dot) • forward
  let orthogonal := v - parallel
  let w := forward.cross orthogonal
  let orthogonal_magnitude := orthogonal.magnitude
  let x1 := cos_z / orthogonal_magnitude
  let x2 := sin_z / w.magnitude
  orthogonal_magnitude • (x1 • orthogonal + x2 • w) + parallel

/-- The up vector computed by `CameraController::recalculate_up` (lines 200-261)
from the rebuilt forward vector and the camera rotation.  The source also
rotates the transient `right` vector by the same `rollRotate` scheme and reads
`is_debug_pressed` to print a diagnostic dump; neither affects the returned up
vector, so they are omitted here. -/
noncomputable def recalculate_up (forward : Vec3) (rot : Vec3) : Vec3 :=
  let sin_z := Real.sin rot.z
  let cos_z := Real.cos rot.z
  rollRotate forward (upFlipped forward rot.x) sin_z cos_z

/-- `CameraController::update_camera` (lines 155-198).  The dolly writes to the
eye (lines 163-168) are transcribed as `eye1` and `eye2`; as in the source,
the final assignment `camera.eye = camera.target - forward` (line 196) rebuilds
the eye from `forward_mag` captured at entry, so `eye2` is dead. -/
noncomputable def CameraController.update_camera (self : CameraController) (camera : Camera) : Camera :=
  let forward := camera.target - camera.eye
  let forward_norm := forward.normalize
  let forward_mag := forward.magnitude
  let eye1 := if self.is_forward_pressed ∧ forward_mag > self.speed then
    camera.eye + self.speed • forward_norm else camera.eye
  let _eye2 := if self.is_backward_pressed then
    eye1 - self.speed • forward_norm else eye1
  let rx := camera.rotation.x + (if self.is_down_pressed then self.speed else 0)
    - (if self.is_up_pressed then self.speed else 0)
  let ry := camera.rotation.y + (if self.is_right_pressed then self.speed else 0)
    - (if self.is_left_pressed then self.speed else 0)
  let rz := camera.rotation.z + (if self.is_zcw_pressed then self.speed else 0)
    - (if self.is_zccw_pressed then self.speed else 0)
  let forward2 := forwardVec forward_mag rx ry
  { camera with
      eye := camera.target - forward2
      rotation := ⟨rx, ry, rz⟩
      up := recalculate_up forward2 ⟨rx, ry, rz⟩ }

/-- Guarded variant of the roll rotation: returns `none` whenever one of the
denominators the source divides by (`forward_dot`, `orthogonal_magnitude`,
`w.magnitude()`) is exactly zero. -/
noncomputable def rollRotateChecked (forward v : Vec3) (sin_z cos_z : ℝ) : Option Vec3 :=
  let forward_dot := forward.dot forward
  if forward_dot = 0 then none else
  let parallel := ((v.dot forward) / forward_dot) • forward
  let orthogonal := v - parallel
  let w := forward.cross orthogonal
  if orthogonal.magnitude = 0 ∨ w.magnitude = 0 then none else
  some (orthogonal.magnitude • ((cos_z / orthogonal.magnitude) • orthogonal
    + (sin_z / w.magnitude) • w) + parallel)

/-- Guarded variant of `recalculate_up`: returns `none` whenever a vector
magnitude the source divides by along the up computation is exactly zero
(the two `normalize` calls and the roll decomposition).  The source has no
such guard and divides regardless. -/
noncomputable def recalculate_upChecked (forward : Vec3) (rot : Vec3) : Option Vec3 :=
  if (forward.cross ⟨0, 1, 0⟩).magnitude = 0 then none
  else if (forward.cross (rightVec forward)).magnitude = 0 then none
  else rollRotateChecked forward (upFlipped forward rot.x) (Real.sin rot.z) (Real.cos rot.z)

/-- Homogeneous 4-vector, modelling `cgmath::Vector4<f32>`. -/
structure Vec4 where
  x : ℝ
  y : ℝ
  z : ℝ
  w : ℝ

/-- Column-major 4x4 matrix, modelling `cgmath::Matrix4<f32>` (which stores
its four columns). -/
structure Mat4 where
  c0 : Vec4
  c1 : Vec4
  c2 : Vec4
  c3 : Vec4

/-- Constructor with the argument order of `cgmath::Matrix4::new`, which is
column-major: the first four scalars form the first column, and so on. -/
def Mat4.new (c0r0 c0r1 c0r2 c0r3 c1r0 c1r1 c1r2 c1r3
    c2r0 c2r1 c2r2 c2r3 c3r0 c3r1 c3r2 c3r3 : ℝ) : Mat4 :=
  ⟨⟨c0r0, c0r1, c0r2, c0r3⟩, ⟨c1r0, c1r1, c1r2, c1r3⟩,
   ⟨c2r0, c2r1, c2r2, c2r3⟩, ⟨c3r0, c3r1, c3r2, c3r3⟩⟩

/-- Matrix-vector product: the linear combination of the columns. -/
def Mat4.mulVec (m : Mat4) (v : Vec4) : Vec4 :=
  ⟨m.c0.x * v.x + m.c1.x * v.y + m.c2.x * v.z + m.c3.x * v.w,
   m.c0.y * v.x + m.c1.y * v.y + m.c2.y * v.z + m.c3.y * v.w,
   m.c0.z * v.x + m.c1.z * v.y + m.c2.z * v.z + m.c3.z * v.w,
   m.c0.w * v.x + m.c1.w * v.y + m.c2.w * v.z + m.c3.w * v.w⟩

/-- The constant `OPENGL_TO_WGPU_MATRIX` (lines 15-20), transcribed with the
exact sixteen scalars the source passes to the column-major
`cgmath::Matrix4::new`. -/
noncomputable def OPENGL_TO_WGPU_MATRIX : Mat4 :=
  Mat4.new 1 0 0 0 0 1 0 0 0 0 0.5 0.5 0 0 0 1

/-- The physical keys `process_events` distinguishes; `unbound` stands for
every other key code (the `_ => false` arm), and non-keyboard window events
are a separate constructor of `WindowEvent`. -/
inductive Key where
  | keyW | keyA | keyS | keyD
  | arrowUp | arrowDown | arrowLeft | arrowRight
  | keyE | keyQ | keyC | keyZ
  | backquote
  | unbound
  deriving DecidableEq

/-- Window events as seen by `process_events`: a keyboard event carrying the
pressed state (`state == ElementState::Pressed`) and the key code, or any
other window event (the outer `_ => false` arm; this also covers keyboard
events whose physical key is not a `PhysicalKey::Code`). -/
inductive WindowEvent where
  | keyboardInput (pressed : Bool) (key : Key)
  | other
  deriving DecidableEq

/-- The nine intent flags of `CameraController`, used to state which single
field a recognized event writes. -/
inductive Intent where
  | forward | backward | left | right | up | down | zcw | zccw | debug
  deriving DecidableEq

/-- Read the intent flag named by `i`. -/
def getIntent (c : CameraController) : Intent → Bool
  | .forward => c.is_forward_pressed
  | .backward => c.is_backward_pressed
  | .left => c.is_left_pressed
  | .right => c.is_right_pressed
  | .up => c.is_up_pressed
  | .down => c.is_down_pressed
  | .zcw => c.is_zcw_pressed
  | .zccw => c.is_zccw_pressed
  | .debug => c.is_debug_pressed

/-- Write the intent flag named by `i`, leaving every other field unchanged. -/
def setIntent (c : CameraController) (i : Intent) (b : Bool) : CameraController :=
  match i with
  | .forward => { c with is_forward_pressed := b }
  | .backward => { c with is_backward_pressed := b }
  | .left => { c with is_left_pressed := b }
  | .right => { c with is_right_pressed := b }
  | .up => { c with is_up_pressed := b }
  | .down => { c with is_down_pressed := b }
  | .zcw => { c with is_zcw_pressed := b }
  | .zccw => { c with is_zccw_pressed := b }
  | .debug => { c with is_debug_pressed := b }

/-- The key binding table of `process_events` (lines 112-148): the intent a
bound key writes, or `none` for an unbound key. -/
def boundIntent : Key → Option Intent
  | .keyW => some .forward
  | .arrowUp => some .forward
  | .keyA => some .left
  | .arrowLeft => some .left
  | .keyS => some .backward
  | .arrowDown => some .backward
  | .keyD => some .right
  | .arrowRight => some .right
  | .keyE => some .up
  | .keyQ => some .down
  | .keyC => some .zcw
  | .keyZ => some .zccw
  | .backquote => some .debug
  | .unbound => none

/-- `CameraController::process_events` (lines 100-153), returning the updated
controller together with the consumed flag. -/
def CameraController.process_events (self : CameraController) (event : WindowEvent) :
    CameraController × Bool :=
  match event with
  | .keyboardInput is_pressed keycode =>
    match keycode with
    | .keyW => ({ self with is_forward_pressed := is_pressed }, true)
    | .arrowUp => ({ self with is_forward_pressed := is_pressed }, true)
    | .keyA => ({ self with is_left_pressed := is_pressed }, true)
    | .arrowLeft => ({ self with is_left_pressed := is_pressed }, true)
    | .keyS => ({ self with is_backward_pressed := is_pressed }, true)
    | .arrowDown => ({ self with is_backward_pressed := is_pressed }, true)
    | .keyD => ({ self with is_right_pressed := is_pressed }, true)
    | .arrowRight => ({ self with is_right_pressed := is_pressed }, true)
    | .keyE => ({ self with is_up_pressed := is_pressed }, true)
    | .keyQ => ({ self with is_down_pressed := is_pressed }, true)
    | .keyC => ({ self with is_zcw_pressed := is_pressed }, true)
    | .keyZ => ({ self with is_zccw_pressed := is_pressed }, true)
    | .backquote => ({ self with is_debug_pressed := is_pressed }, true)
    | .unbound => (self, false)
  | .other => (self, false)

/-- A controller with the given speed and every intent flag false. -/
def ctrlNone (speed : ℝ) : CameraController :=
  CameraController.new speed

/-- A controller with the given speed and only the roll-clockwise intent set. -/
def ctrlRoll (speed : ℝ) : CameraController :=
  { CameraController.new speed with is_zcw_pressed := true }

/-- A controller with the given speed and only the forward intent set. -/
def ctrlForward (speed : ℝ) : CameraController :=
  { CameraController.new speed with is_forward_pressed := true }

/-- The camera constructed by the application (src/lib.rs lines 222-235):
eye two units back along z, looking at the origin, zero rotation. -/
noncomputable def initialCamera (aspect : ℝ) : Camera :=
  { eye := ⟨0, 0, 2⟩
    target := ⟨0, 0, 0⟩
    up := ⟨0, 1, 0⟩
    aspect := aspect
    fovy := 45
    znear := 0.1
    zfar := 100
    rotation := ⟨0, 0, 0⟩ }

/-- Camera for the dolly scenario of the spec: eye at distance five from the
origin target, zero rotation. -/
noncomputable def camDolly : Camera :=
  { eye := ⟨0, 0, 5⟩
    target := ⟨0, 0, 0⟩
    up := ⟨0, 1, 0⟩
    aspect := 1
    fovy := 45
    znear := 0.1
    zfar := 100
    rotation := ⟨0, 0, 0⟩ }

/-- Camera posed on its orbit with pitch `π/6`: the eye sits at distance one
from the origin target opposite to `forwardVec 1 (π/6) 0`. -/
noncomputable def camPitchSixth : Camera :=
  { eye := ⟨-(Real.sqrt 3 / 2), -(1 / 2), 0⟩
    target := ⟨0, 0, 0⟩
    up := ⟨0, 1, 0⟩
    aspect := 1
    fovy := 45
    znear := 0.1
    zfar := 100
    rotation := ⟨π / 6, 0, 0⟩ }

/-- Orbit-consistent camera with zero rotation at distance two from the
origin target. -/
noncomputable def camOrbit : Camera :=
  { eye := ⟨-2, 0, 0⟩
    target := ⟨0, 0, 0⟩
    up := ⟨0, 1, 0⟩
    aspect := 1
    fovy := 45
    znear := 0.1
    zfar := 100
    rotation := ⟨0, 0, 0⟩ }

/-- Camera at distance one from the origin target whose pitch is exactly
`π/2`, the vertical singularity. -/
noncomputable def camVertical : Camera :=
  { eye := ⟨0, 0, 1⟩
    target := ⟨0, 0, 0⟩
    up := ⟨0, 1, 0⟩
    aspect := 1
    fovy := 45
    znear := 0.1
    zfar := 100
    rotation := ⟨π / 2, 0, 0⟩ }

/-- Proposition that every intent flag of the controller is false. -/
def allIntentsFalse (ctrl : CameraController) : Prop :=
  ctrl.is_forward_pressed = false ∧ ctrl.is_backward_pressed = false ∧
  ctrl.is_left_pressed = false ∧ ctrl.is_right_pressed = false ∧
  ctrl.is_up_pressed = false ∧ ctrl.is_down_pressed = false ∧
  ctrl.is_zcw_pressed = false ∧ ctrl.is_zccw_pressed = false ∧
  ctrl.is_debug_pressed = false

/-! ### Component lemmas for the vector operations -/

@[simp]
theorem Vec3.add_x (a b : Vec3) : (a + b).x = a.x + b.x := rfl

@[simp]
theorem Vec3.add_y (a b : Vec3) : (a + b).y = a.y + b.y := rfl

@[simp]
theorem Vec3.add_z (a b : Vec3) : (a + b).z = a.z + b.z := rfl

@[simp]
theorem Vec3.sub_x (a b : Vec3) : (a - b).x = a.x - b.x := rfl

@[simp]
theorem Vec3.sub_y (a b : Vec3) : (a - b).y = a.y - b.y := rfl

@[simp]
theorem Vec3.sub_z (a b : Vec3) : (a - b).z = a.z - b.z := rfl

@[simp]
theorem Vec3.neg_x (a : Vec3) : (-a).x = -a.x := rfl

@[simp]
theorem Vec3.neg_y (a : Vec3) : (-a).y = -a.y := rfl

@[simp]
theorem Vec3.neg_z (a : Vec3) : (-a).z = -a.z := rfl

@[simp]
theorem Vec3.smul_x (c : ℝ) (a : Vec3) : (c • a).x = c * a.x := rfl

@[simp]
theorem Vec3.smul_y (c : ℝ) (a : Vec3) : (c • a).y = c * a.y := rfl

@[simp]
theorem Vec3.smul_z (c : ℝ) (a : Vec3) : (c • a).z = c * a.z := rfl

theorem Vec3.sub_sub_cancel (a b : Vec3) : a - (a - b) = b := by
  ext <;> simp

/-! ### Scalar helper lemmas -/

theorem abs_mul_signumR (a : ℝ) : |a| * signumR a = a := by
  rcases lt_or_ge a 0 with h | h
  · simp [signumR, h, abs_of_neg h]
  · simp [signumR, not_lt.mpr h, abs_of_nonneg h]

theorem sqrt_eq_of_sq {a b : ℝ} (hb : 0 ≤ b) (h : b ^ 2 = a) : Real.sqrt a = b := by
  subst h
  exact Real.sqrt_sq hb

theorem Vec3.dot_self_nonneg (v : Vec3) : 0 ≤ v.dot v := by
  have hx := mul_self_nonneg v.x
  have hy := mul_self_nonneg v.y
  have hz := mul_self_nonneg v.z
  simp only [Vec3.dot]
  linarith

theorem Vec3.magnitude_nonneg (v : Vec3) : 0 ≤ v.magnitude :=
  Real.sqrt_nonneg _

theorem Vec3.magnitude_eq {m : ℝ} (v : Vec3) (hm : 0 ≤ m) (h : v.dot v = m ^ 2) :
    v.magnitude = m := by
  rw [Vec3.magnitude, h]
  exact Real.sqrt_sq hm

/-- The rebuilt forward vector has exactly the prescribed magnitude. -/
theorem mag_forwardVec (x y : ℝ) {m : ℝ} (hm : 0 ≤ m) :
    (forwardVec m x y).magnitude = m := by
  apply Vec3.magnitude_eq _ hm
  have hx := Real.sin_sq_add_cos_sq x
  have hy := Real.sin_sq_add_cos_sq y
  simp only [forwardVec, Vec3.dot]
  linear_combination (m ^ 2 * (Real.cos x) ^ 2) * hy + m ^ 2 * hx

/-! ### Projection lemmas for `update_camera` -/

theorem update_camera_rotation (ctrl : CameraController) (cam : Camera) :
    (ctrl.update_camera cam).rotation =
      ⟨cam.rotation.x + (if ctrl.is_down_pressed then ctrl.speed else 0)
          - (if ctrl.is_up_pressed then ctrl.speed else 0),
        cam.rotation.y + (if ctrl.is_right_pressed then ctrl.speed else 0)
          - (if ctrl.is_left_pressed then ctrl.speed else 0),
        cam.rotation.z + (if ctrl.is_zcw_pressed then ctrl.speed else 0)
          - (if ctrl.is_zccw_pressed then ctrl.speed else 0)⟩ := rfl

theorem update_camera_eye (ctrl : CameraController) (cam : Camera) :
    (ctrl.update_camera cam).eye =
      cam.target - forwardVec ((cam.target - cam.eye).magnitude)
        (ctrl.update_camera cam).rotation.x (ctrl.update_camera cam).rotation.y := rfl

theorem update_camera_up (ctrl : CameraController) (cam : Camera) :
    (ctrl.update_camera cam).up =
      recalculate_up
        (forwardVec ((cam.target - cam.eye).magnitude)
          (ctrl.update_camera cam).rotation.x (ctrl.update_camera cam).rotation.y)
        (ctrl.update_camera cam).rotation := rfl

theorem update_camera_target (ctrl : CameraController) (cam : Camera) :
    (ctrl.update_camera cam).target = cam.target := rfl

theorem update_camera_aspect (ctrl : CameraController) (cam : Camera) :
    (ctrl.update_camera cam).aspect = cam.aspect := rfl

theorem update_camera_fovy (ctrl : CameraController) (cam : Camera) :
    (ctrl.update_camera cam).fovy = cam.fovy := rfl

theorem update_camera_znear (ctrl : CameraController) (cam : Camera) :
    (ctrl.update_camera cam).znear = cam.znear := rfl

theorem update_camera_zfar (ctrl : CameraController) (cam : Camera) :
    (ctrl.update_camera cam).zfar = cam.zfar := rfl

/-! ### Claim theorems -/

/-- C2: for every camera pose with target distinct from the eye and every
combination of intent flags, the eye-to-target distance after `update_camera`
equals the magnitude measured at entry: the final reposition rebuilds forward
from the magnitude captured at the start of the call, so forward and backward
intents do not change the orbit radius across a single update. -/
theorem orbit_radius_preserved (ctrl : CameraController) (cam : Camera)
    (_h : cam.target ≠ cam.eye) :
    ((ctrl.update_camera cam).target - (ctrl.update_camera cam).eye).magnitude
      = (cam.target - cam.eye).magnitude := by
  rw [update_camera_target, update_camera_eye, Vec3.sub_sub_cancel]
  exact mag_forwardVec _ _ (Vec3.magnitude_nonneg _)

/-- Witness for C2 at the application's initial camera with the forward intent
pressed. -/
theorem orbit_radius_preserved_witness :
    (((ctrlForward 1).update_camera (initialCamera 1)).target
        - ((ctrlForward 1).update_camera (initialCamera 1)).eye).magnitude
      = ((initialCamera 1).target - (initialCamera 1).eye).magnitude := by
  apply orbit_radius_preserved
  intro h
  have h2 : (0 : ℝ) = 2 := congrArg Vec3.z h
  norm_num at h2

/-- C6: after angle accumulation the eye is rebuilt as
`target - forwardVec mag pitch yaw` from the magnitude captured at entry with
the accumulated pitch `rotation.x` and yaw `rotation.y`; and two cameras that
agree on target, rotation and entry magnitude — regardless of the previous
forward direction — produce the same final eye. -/
theorem forward_rederivation (ctrl : CameraController) (c1 c2 : Camera) :
    (ctrl.update_camera c1).eye =
        c1.target - forwardVec ((c1.target - c1.eye).magnitude)
          (ctrl.update_camera c1).rotation.x (ctrl.update_camera c1).rotation.y
      ∧ (c2.target = c1.target → c2.rotation = c1.rotation →
          (c2.target - c2.eye).magnitude = (c1.target - c1.eye).magnitude →
          (ctrl.update_camera c2).eye = (ctrl.update_camera c1).eye) := by
  refine ⟨update_camera_eye ctrl c1, fun ht hr hm => ?_⟩
  rw [ht] at hm
  simp only [update_camera_eye, update_camera_rotation, ht, hr, hm]

/-- Witness for C6 at the application's initial camera. -/
theorem forward_rederivation_witness :
    ((ctrlNone 1).update_camera (initialCamera 1)).eye
        = (initialCamera 1).target -
            forwardVec (((initialCamera 1).target - (initialCamera 1).eye).magnitude)
              ((ctrlNone 1).update_camera (initialCamera 1)).rotation.x
              ((ctrlNone 1).update_camera (initialCamera 1)).rotation.y
      ∧ ((ctrlNone 1).update_camera (initialCamera 1)).eye
        = ((ctrlNone 1).update_camera (initialCamera 1)).eye :=
  ⟨(forward_rederivation (ctrlNone 1) (initialCamera 1) (initialCamera 1)).1,
   (forward_rederivation (ctrlNone 1) (initialCamera 1) (initialCamera 1)).2 rfl rfl rfl⟩

/-- C1 (code evaluated at the claim's failing input): starting at distance five
with speed `0.05` and only the forward intent active, one `update_camera`
leaves the eye-to-target distance at five — the dolly write to the eye is
overwritten by the final reposition, which rebuilds the eye from the entry
magnitude — instead of decreasing the distance by the speed. -/
theorem dolly_ineffective_at_distance_five :
    (((ctrlForward 0.05).update_camera camDolly).target
        - ((ctrlForward 0.05).update_camera camDolly).eye).magnitude = 5
      ∧ (((ctrlForward 0.05).update_camera camDolly).target
        - ((ctrlForward 0.05).update_camera camDolly).eye).magnitude ≠ 5 - 0.05 := by
  have hm : (camDolly.target - camDolly.eye).magnitude = 5 := by
    apply Vec3.magnitude_eq _ (by norm_num)
    norm_num [camDolly, Vec3.dot]
  have h5 : (((ctrlForward 0.05).update_camera camDolly).target
      - ((ctrlForward 0.05).update_camera camDolly).eye).magnitude = 5 := by
    rw [update_camera_target, update_camera_eye, Vec3.sub_sub_cancel, hm]
    exact mag_forwardVec _ _ (by norm_num)
  exact ⟨h5, by rw [h5]; norm_num⟩

/-- C3 is refuted at the application's initial camera: with every intent flag
false, `update_camera` still moves the eye (from `(0,0,2)` to `(-2,0,0)`),
because the final reposition snaps the eye onto the orbit position determined
by the zero rotation. -/
theorem noIntent_update_moves_initial_eye :
    ((ctrlNone 0.05).update_camera (initialCamera 1)).eye ≠ (initialCamera 1).eye := by
  intro h
  have hz : (((ctrlNone 0.05).update_camera (initialCamera 1)).eye).z
      = ((initialCamera 1).eye).z := congrArg Vec3.z h
  rw [update_camera_eye] at hz
  norm_num [initialCamera, ctrlNone, CameraController.new, forwardVec,
    update_camera_rotation, Real.sin_zero, Real.cos_zero] at hz

/-- C3 (amended): with every intent flag false, `update_camera` leaves the
rotation unchanged; it leaves the eye unchanged provided the camera already
sits on the orbit determined by its rotation and its eye-to-target distance
(as it does after any update); and the recomputed up vector is determined by
the unchanged eye, target and rotation alone, not by the previous up vector. -/
theorem noIntent_update_spec (ctrl : CameraController) (c1 c2 : Camera)
    (hf : allIntentsFalse ctrl) :
    (ctrl.update_camera c1).rotation = c1.rotation
      ∧ (c1.eye = c1.target - forwardVec ((c1.target - c1.eye).magnitude)
            c1.rotation.x c1.rotation.y →
          (ctrl.update_camera c1).eye = c1.eye)
      ∧ (c2.eye = c1.eye → c2.target = c1.target → c2.rotation = c1.rotation →
          (ctrl.update_camera c2).up = (ctrl.update_camera c1).up) := by
  obtain ⟨h1, h2, h3, h4, h5, h6, h7, h8, h9⟩ := hf
  have hrot : ∀ c : Camera, (ctrl.update_camera c).rotation = c.rotation := by
    intro c
    rw [update_camera_rotation]
    simp [h1, h2, h3, h4, h5, h6, h7, h8]
  refine ⟨hrot c1, fun he => ?_, fun he ht hr => ?_⟩
  · rw [update_camera_eye, hrot c1]
    exact he.symm
  · rw [update_camera_up, update_camera_up, hrot c1, hrot c2, he, ht, hr]

/-- Witness for C3 (amended) at an orbit-consistent camera. -/
theorem noIntent_update_spec_witness :
    ((ctrlNone 0.05).update_camera camOrbit).eye = camOrbit.eye
      ∧ ((ctrlNone 0.05).update_camera camOrbit).rotation = camOrbit.rotation := by
  have hs : allIntentsFalse (ctrlNone 0.05) := by
    simp [allIntentsFalse, ctrlNone, CameraController.new]
  have h := noIntent_update_spec (ctrlNone 0.05) camOrbit camOrbit hs
  refine ⟨h.2.1 ?_, h.1⟩
  have hm : (camOrbit.target - camOrbit.eye).magnitude = 2 := by
    apply Vec3.magnitude_eq _ (by norm_num)
    norm_num [camOrbit, Vec3.dot]
  rw [hm]
  ext <;> norm_num [camOrbit, forwardVec, Real.cos_zero, Real.sin_zero]

/-- C4 (code evaluated at the claim's failing input): the fixed matrix, with
the sixteen scalars the source hands to the column-major `cgmath` constructor,
sends the homogeneous point `(0,0,-1,1)` — which has `w > 0` and `z/w = -1`,
inside `[-1,1]` — to a point with `z'/w' = -1`, which is not `0` and lies
outside `[0,1]`. -/
theorem opengl_to_wgpu_matrix_bug :
    (0 : ℝ) < (Vec4.mk 0 0 (-1) 1).w
      ∧ (Vec4.mk 0 0 (-1) 1).z / (Vec4.mk 0 0 (-1) 1).w = -1
      ∧ (OPENGL_TO_WGPU_MATRIX.mulVec ⟨0, 0, -1, 1⟩).z
          / (OPENGL_TO_WGPU_MATRIX.mulVec ⟨0, 0, -1, 1⟩).w = -1
      ∧ ¬(0 ≤ (OPENGL_TO_WGPU_MATRIX.mulVec ⟨0, 0, -1, 1⟩).z
          / (OPENGL_TO_WGPU_MATRIX.mulVec ⟨0, 0, -1, 1⟩).w) := by
  norm_num [OPENGL_TO_WGPU_MATRIX, Mat4.new, Mat4.mulVec]

/-- C9: at the reachable pose with pitch exactly `π/2` and unit forward
magnitude, the first division of the basis reconstruction is by the magnitude
of `forward × world_up`, which is exactly zero, so the guarded embedding
reaches its error branch; the source performs the same division unguarded. -/
theorem recalc_up_singular_at_vertical_pitch :
    recalculate_upChecked
        (forwardVec ((camVertical.target - camVertical.eye).magnitude)
          camVertical.rotation.x camVertical.rotation.y)
        camVertical.rotation = none := by
  have hm : (camVertical.target - camVertical.eye).magnitude = 1 := by
    apply Vec3.magnitude_eq _ (by norm_num)
    norm_num [camVertical, Vec3.dot]
  rw [hm]
  have hf : forwardVec 1 camVertical.rotation.x camVertical.rotation.y = ⟨0, 1, 0⟩ := by
    norm_num [camVertical, forwardVec, Real.cos_pi_div_two, Real.sin_pi_div_two,
      Real.sin_zero, Real.cos_zero]
  rw [hf]
  norm_num [recalculate_upChecked, Vec3.cross, Vec3.magnitude, Vec3.dot, Real.sqrt_zero]

/-- C7: inside `recalculate_up` the provisional up vector is negated in its
entirety exactly when the classified pitch `rotation.x.rem_euclid(2π)` lies in
`(π/4, π/2]` or in `[3π/4, 3π/2)`, and is left un-negated for every classified
pitch outside those two intervals. -/
theorem flip_negation_intervals (f : Vec3) (rotx : ℝ) :
    (remEuclid rotx (2 * π) ∈ Set.Ioc (π / 4) (π / 2) ∪ Set.Ico (3 * π / 4) (3 * π / 2) →
        upFlipped f rotx = (-1 : ℝ) • upProvisional f)
      ∧ (remEuclid rotx (2 * π) ∉ Set.Ioc (π / 4) (π / 2) ∪ Set.Ico (3 * π / 4) (3 * π / 2) →
        upFlipped f rotx = upProvisional f) := by
  have hiff : flipCond rotx ↔
      remEuclid rotx (2 * π) ∈ Set.Ioc (π / 4) (π / 2)
        ∪ Set.Ico (3 * π / 4) (3 * π / 2) := by
    rw [Set.mem_union, Set.mem_Ioc, Set.mem_Ico]
    simp only [flipCond]
    constructor
    · rintro (⟨ha, hb⟩ | ⟨ha, hb⟩)
      · exact Or.inl ⟨by linarith, by linarith⟩
      · exact Or.inr ⟨by linarith, by linarith⟩
    · rintro (⟨ha, hb⟩ | ⟨ha, hb⟩)
      · exact Or.inl ⟨by linarith, by linarith⟩
      · exact Or.inr ⟨by linarith, by linarith⟩
  constructor
  · intro h
    simp only [upFlipped]
    rw [if_pos (hiff.mpr h)]
  · intro h
    simp only [upFlipped]
    rw [if_neg (fun hc => h (hiff.mp hc))]

/-- Witness for C7 at zero pitch: the classified pitch `0` lies outside both
intervals, so the provisional up vector is not negated. -/
theorem flip_negation_intervals_witness :
    upFlipped ⟨1, 0, 0⟩ 0 = upProvisional ⟨1, 0, 0⟩ := by
  apply (flip_negation_intervals ⟨1, 0, 0⟩ 0).2
  have h0 : remEuclid 0 (2 * π) = 0 := by
    simp [remEuclid]
  rw [h0, Set.mem_union, Set.mem_Ioc, Set.mem_Ico]
  push_neg
  have hπ := Real.pi_pos
  constructor
  · intro h
    linarith
  · intro h
    linarith

/-! ### Input mapper lemmas and claim C10 -/

theorem setIntent_get_same (c : CameraController) (i : Intent) (b : Bool) :
    getIntent (setIntent c i b) i = b := by
  cases i <;> rfl

theorem setIntent_get_other (c : CameraController) (i : Intent) (b : Bool)
    (j : Intent) (h : j ≠ i) : getIntent (setIntent c i b) j = getIntent c j := by
  cases i <;> cases j <;> first | rfl | exact absurd rfl h

theorem setIntent_speed (c : CameraController) (i : Intent) (b : Bool) :
    (setIntent c i b).speed = c.speed := by
  cases i <;> rfl

theorem process_events_bound (c : CameraController) (p : Bool) (k : Key) (i : Intent)
    (h : boundIntent k = some i) :
    c.process_events (.keyboardInput p k) = (setIntent c i p, true) := by
  cases k <;> simp only [boundIntent, Option.some.injEq] at h <;>
    first
      | exact absurd h (by simp)
      | (subst h; rfl)

theorem process_events_idem (c : CameraController) (e : WindowEvent) :
    ((c.process_events e).1).process_events e = c.process_events e := by
  cases e with
  | other => rfl
  | keyboardInput p k => cases k <;> rfl

/-- C10: a keyboard event on a bound key writes exactly the one corresponding
intent flag to the event's pressed state, leaves every other intent flag and
the speed unchanged, and is consumed (`true`); an event on an unbound key, or
a non-keyboard event, is not consumed and leaves the controller unchanged;
and re-applying any event is idempotent, since the flags are booleans. -/
theorem process_events_spec (c : CameraController) (p : Bool) (k : Key) :
    (∀ i : Intent, boundIntent k = some i →
        c.process_events (.keyboardInput p k) = (setIntent c i p, true)
          ∧ getIntent (setIntent c i p) i = p
          ∧ (∀ j : Intent, j ≠ i → getIntent (setIntent c i p) j = getIntent c j)
          ∧ (setIntent c i p).speed = c.speed)
      ∧ (boundIntent k = none → c.process_events (.keyboardInput p k) = (c, false))
      ∧ (∀ e : WindowEvent, ((c.process_events e).1).process_events e = c.process_events e)
      ∧ c.process_events .other = (c, false) := by
  refine ⟨fun i hi => ⟨process_events_bound c p k i hi, setIntent_get_same c i p,
      fun j hj => setIntent_get_other c i p j hj, setIntent_speed c i p⟩,
    fun hn => ?_, process_events_idem c, rfl⟩
  cases k <;> first | rfl | exact absurd hn (by simp [boundIntent])

/-- Witness for C10: pressing W on a fresh controller sets exactly the forward
intent. -/
theorem process_events_spec_witness :
    (CameraController.new 1).process_events (.keyboardInput true .keyW)
      = (setIntent (CameraController.new 1) .forward true, true) :=
  (((process_events_spec (CameraController.new 1) true .keyW).1) .forward rfl).1

/-! ### Roll periodicity (claim C8) -/

/-- The up vector computed by `recalculate_up` is unchanged when the roll angle
grows by a full turn, since the roll enters only through its sine and cosine. -/
theorem recalc_z_periodic (f : Vec3) (x y z : ℝ) :
    recalculate_up f ⟨x, y, z + 2 * π⟩ = recalculate_up f ⟨x, y, z⟩ := by
  simp [recalculate_up, Real.sin_add_two_pi, Real.cos_add_two_pi]

/-- Single roll-only update step on an orbit-consistent camera literal. -/
theorem update_roll_step (s : ℝ) (T u : Vec3) (m x y z asp fov zn zf : ℝ)
    (hm : 0 ≤ m) :
    (ctrlRoll s).update_camera
        ⟨T - forwardVec m x y, T, u, asp, fov, zn, zf, ⟨x, y, z⟩⟩
      = ⟨T - forwardVec m x y, T,
          recalculate_up (forwardVec m x y) ⟨x, y, z + s⟩,
          asp, fov, zn, zf, ⟨x, y, z + s⟩⟩ := by
  have hmag : ((⟨T - forwardVec m x y, T, u, asp, fov, zn, zf, ⟨x, y, z⟩⟩ : Camera).target
      - (⟨T - forwardVec m x y, T, u, asp, fov, zn, zf, ⟨x, y, z⟩⟩ : Camera).eye).magnitude
      = m := by
    show (T - (T - forwardVec m x y)).magnitude = m
    rw [Vec3.sub_sub_cancel]
    exact mag_forwardVec _ _ hm
  ext <;>
    simp [update_camera_eye, update_camera_rotation, update_camera_up,
      update_camera_target, update_camera_aspect, update_camera_fovy,
      update_camera_znear, update_camera_zfar, hmag, ctrlRoll, CameraController.new]

/-- Iterating the roll-only update accumulates the roll angle linearly while
the eye, target and the pitch/yaw angles stay fixed. -/
theorem update_roll_iterate (s : ℝ) (T : Vec3) (m x y z asp fov zn zf : ℝ)
    (hm : 0 ≤ m) (k : ℕ) :
    (CameraController.update_camera (ctrlRoll s))^[k]
        ⟨T - forwardVec m x y, T, recalculate_up (forwardVec m x y) ⟨x, y, z⟩,
          asp, fov, zn, zf, ⟨x, y, z⟩⟩
      = ⟨T - forwardVec m x y, T,
          recalculate_up (forwardVec m x y) ⟨x, y, z + k * s⟩,
          asp, fov, zn, zf, ⟨x, y, z + k * s⟩⟩ := by
  induction k with
  | zero => simp
  | succ k ih =>
    rw [Function.iterate_succ_apply', ih, update_roll_step s T _ m x y _ asp fov zn zf hm]
    have hz : z + (k : ℝ) * s + s = z + ((k : ℕ) + 1 : ℕ) * s := by
      push_cast
      ring
    rw [hz]

/-- C8: roll is `2π`-periodic.  `recalculate_up` returns the same up vector
for roll angles `z` and `z + 2π`; consequently, starting from the pose settled
by one intent-free update and accumulating exactly `2π` of roll through `n`
roll-clockwise updates of step `s` returns the stored up vector to its
pre-roll value, with pitch and yaw held fixed throughout. -/
theorem roll_two_pi_periodic (cam : Camera) (s₀ s : ℝ) (n : ℕ)
    (h : (n : ℝ) * s = 2 * π) :
    (∀ (f : Vec3) (x y z : ℝ),
        recalculate_up f ⟨x, y, z + 2 * π⟩ = recalculate_up f ⟨x, y, z⟩)
      ∧ ((CameraController.update_camera (ctrlRoll s))^[n]
            ((ctrlNone s₀).update_camera cam)).up
          = ((ctrlNone s₀).update_camera cam).up := by
  refine ⟨recalc_z_periodic, ?_⟩
  obtain ⟨e, T, u, asp, fov, zn, zf, X, Y, Z⟩ := cam
  have h0 : (ctrlNone s₀).update_camera ⟨e, T, u, asp, fov, zn, zf, ⟨X, Y, Z⟩⟩
      = ⟨T - forwardVec ((T - e).magnitude) X Y, T,
          recalculate_up (forwardVec ((T - e).magnitude) X Y) ⟨X, Y, Z⟩,
          asp, fov, zn, zf, ⟨X, Y, Z⟩⟩ := by
    ext <;> simp [update_camera_eye, update_camera_rotation, update_camera_up,
      update_camera_target, update_camera_aspect, update_camera_fovy,
      update_camera_znear, update_camera_zfar, ctrlNone, CameraController.new]
  rw [h0, update_roll_iterate s T ((T - e).magnitude) X Y Z asp fov zn zf
    (Vec3.magnitude_nonneg _) n]
  show recalculate_up (forwardVec ((T - e).magnitude) X Y) ⟨X, Y, Z + (n : ℝ) * s⟩
      = recalculate_up (forwardVec ((T - e).magnitude) X Y) ⟨X, Y, Z⟩
  rw [h]
  exact recalc_z_periodic _ X Y Z

/-- Witness for C8: a single roll update of step `2π` from the settled initial
camera restores the up vector. -/
theorem roll_two_pi_periodic_witness :
    ((CameraController.update_camera (ctrlRoll (2 * π)))^[1]
        ((ctrlNone 1).update_camera (initialCamera 1))).up
      = ((ctrlNone 1).update_camera (initialCamera 1)).up :=
  (roll_two_pi_periodic (initialCamera 1) 1 (2 * π) 1 (by norm_num)).2

/-! ### Dot and cross product algebra -/

theorem Vec3.dot_comm (a b : Vec3) : a.dot b = b.dot a := by
  simp only [Vec3.dot]
  ring

theorem Vec3.add_dot (a b c : Vec3) : (a + b).dot c = a.dot c + b.dot c := by
  simp only [Vec3.dot, Vec3.add_x, Vec3.add_y, Vec3.add_z]
  ring

theorem Vec3.dot_add (a b c : Vec3) : a.dot (b + c) = a.dot b + a.dot c := by
  simp only [Vec3.dot, Vec3.add_x, Vec3.add_y, Vec3.add_z]
  ring

theorem Vec3.smul_dot (r : ℝ) (a b : Vec3) : (r • a).dot b = r * a.dot b := by
  simp only [Vec3.dot, Vec3.smul_x, Vec3.smul_y, Vec3.smul_z]
  ring

theorem Vec3.dot_smul (r : ℝ) (a b : Vec3) : a.dot (r • b) = r * a.dot b := by
  simp only [Vec3.dot, Vec3.smul_x, Vec3.smul_y, Vec3.smul_z]
  ring

theorem cross_dot_left (a b : Vec3) : (a.cross b).dot a = 0 := by
  simp only [Vec3.cross, Vec3.dot]
  ring

theorem cross_dot_right (a b : Vec3) : (a.cross b).dot b = 0 := by
  simp only [Vec3.cross, Vec3.dot]
  ring

/-- Lagrange identity for the squared magnitude of a cross product. -/
theorem cross_dot_sq (a b : Vec3) :
    (a.cross b).dot (a.cross b) = a.dot a * b.dot b - (a.dot b) ^ 2 := by
  simp only [Vec3.cross, Vec3.dot]
  ring

theorem Vec3.zero_smul_eq (a : Vec3) : (0 : ℝ) • a = (⟨0, 0, 0⟩ : Vec3) := by
  ext <;> simp

theorem Vec3.one_smul_eq (a : Vec3) : (1 : ℝ) • a = a := by
  ext <;> simp

theorem Vec3.sub_zero_vec (a : Vec3) : a - (⟨0, 0, 0⟩ : Vec3) = a := by
  ext <;> simp

theorem Vec3.add_zero_vec (a : Vec3) : a + (⟨0, 0, 0⟩ : Vec3) = a := by
  ext <;> simp

/-! ### Invariance lemmas for the up-vector pipeline -/

/-- The roll rotation keeps a unit vector orthogonal to `forward` both unit
and orthogonal, for exact sine/cosine inputs. -/
theorem rollRotate_unit_orth (f v : Vec3) (sz cz : ℝ)
    (hf : 0 < f.dot f) (hv : v.dot f = 0) (hu : v.dot v = 1)
    (hz : sz ^ 2 + cz ^ 2 = 1) :
    (rollRotate f v sz cz).dot f = 0
      ∧ (rollRotate f v sz cz).dot (rollRotate f v sz cz) = 1 := by
  have hzero : v.dot f / f.dot f = 0 := by rw [hv, zero_div]
  have hvm : v.magnitude = 1 :=
    Vec3.magnitude_eq _ zero_le_one (by rw [hu]; norm_num)
  set q := Real.sqrt (f.dot f) with hqdef
  have hsq : q ^ 2 = f.dot f := Real.sq_sqrt hf.le
  have hqpos : 0 < q := Real.sqrt_pos.mpr hf
  have hqne : q ≠ 0 := ne_of_gt hqpos
  have hwdot : (f.cross v).dot (f.cross v) = f.dot f := by
    rw [cross_dot_sq, hu, Vec3.dot_comm f v, hv]
    ring
  have hwmag : (f.cross v).magnitude = q := by
    rw [Vec3.magnitude, hwdot, hqdef]
  have hvw : v.dot (f.cross v) = 0 := by
    rw [Vec3.dot_comm]
    exact cross_dot_right f v
  simp only [rollRotate, hzero, Vec3.zero_smul_eq, Vec3.sub_zero_vec, hvm, hwmag,
    Vec3.add_zero_vec, div_one, Vec3.one_smul_eq]
  constructor
  · rw [Vec3.add_dot, Vec3.smul_dot, Vec3.smul_dot, hv, cross_dot_left]
    ring
  · rw [Vec3.add_dot, Vec3.smul_dot, Vec3.smul_dot, Vec3.dot_add, Vec3.dot_add,
      Vec3.dot_smul, Vec3.dot_smul, Vec3.dot_smul, Vec3.dot_smul, hu, hvw,
      cross_dot_right, hwdot, ← hsq]
    field_simp
    linear_combination q ^ 2 * hz

/-- Away from the vertical singularity and for nonpositive `forward.y` (the
pitches with nonpositive sine), the octant sign corrections reproduce the
normalized cross product itself, so the provisional up vector is unit and
orthogonal to `forward`. -/
theorem upProvisional_unit_orth (f : Vec3) (hs : 0 < f.x ^ 2 + f.z ^ 2)
    (hy : f.y ≤ 0) :
    (upProvisional f).dot f = 0 ∧ (upProvisional f).dot (upProvisional f) = 1 := by
  have hc1 : f.cross ⟨0, 1, 0⟩ = ⟨-f.z, 0, f.x⟩ := by
    ext <;> simp [Vec3.cross]
  set s := Real.sqrt (f.x ^ 2 + f.z ^ 2) with hsdef
  have hspos : 0 < s := Real.sqrt_pos.mpr hs
  have hsne : s ≠ 0 := ne_of_gt hspos
  have hss : s ^ 2 = f.x ^ 2 + f.z ^ 2 := Real.sq_sqrt hs.le
  have hdc1 : (⟨-f.z, 0, f.x⟩ : Vec3).dot ⟨-f.z, 0, f.x⟩ = s ^ 2 := by
    rw [hss]
    simp only [Vec3.dot]
    ring
  have hmagc1 : (⟨-f.z, 0, f.x⟩ : Vec3).magnitude = s :=
    Vec3.magnitude_eq _ hspos.le hdc1
  have hnormc1 : (⟨-f.z, 0, f.x⟩ : Vec3).normalize = ⟨-(f.z / s), 0, f.x / s⟩ := by
    rw [Vec3.normalize, hmagc1]
    ext <;> simp <;> ring
  have habs : ∀ a : ℝ, |a / s| * signumR a = a / s := by
    intro a
    rw [abs_div, abs_of_pos hspos, div_mul_eq_mul_div, abs_mul_signumR]
  have hright : rightVec f = ⟨f.z / s, 0, -(f.x / s)⟩ := by
    simp only [rightVec, hc1, hnormc1]
    ext
    · show |(-(f.z / s))| * signumR f.z = f.z / s
      rw [abs_neg]
      exact habs f.z
    · rfl
    · show |f.x / s| * -signumR f.x = -(f.x / s)
      rw [mul_neg, habs]
  have hc2 : f.cross (rightVec f) =
      ⟨-(f.x * f.y) / s, (f.x ^ 2 + f.z ^ 2) / s, -(f.y * f.z) / s⟩ := by
    rw [hright]
    ext <;> simp [Vec3.cross] <;> ring
  have hfd : 0 < f.dot f := by
    simp only [Vec3.dot]
    nlinarith [sq_nonneg f.y, hs]
  set m := Real.sqrt (f.dot f) with hmdef
  have hmpos : 0 < m := Real.sqrt_pos.mpr hfd
  have hmne : m ≠ 0 := ne_of_gt hmpos
  have hmm : m ^ 2 = f.x ^ 2 + f.y ^ 2 + f.z ^ 2 := by
    rw [hmdef]
    rw [show f.dot f = f.x ^ 2 + f.y ^ 2 + f.z ^ 2 by simp only [Vec3.dot]; ring] at hfd ⊢
    exact Real.sq_sqrt hfd.le
  have hdc2 : (⟨-(f.x * f.y) / s, (f.x ^ 2 + f.z ^ 2) / s, -(f.y * f.z) / s⟩ : Vec3).dot
      ⟨-(f.x * f.y) / s, (f.x ^ 2 + f.z ^ 2) / s, -(f.y * f.z) / s⟩ = m ^ 2 := by
    simp only [Vec3.dot]
    rw [hmm]
    field_simp
    linear_combination (-(f.x ^ 2 + f.y ^ 2 + f.z ^ 2)) * hss
  have hmagc2 : (⟨-(f.x * f.y) / s, (f.x ^ 2 + f.z ^ 2) / s,
      -(f.y * f.z) / s⟩ : Vec3).magnitude = m :=
    Vec3.magnitude_eq _ hmpos.le hdc2
  have hnormc2 : (⟨-(f.x * f.y) / s, (f.x ^ 2 + f.z ^ 2) / s,
      -(f.y * f.z) / s⟩ : Vec3).normalize =
      ⟨-(f.x * f.y) / (s * m), (f.x ^ 2 + f.z ^ 2) / (s * m),
        -(f.y * f.z) / (s * m)⟩ := by
    rw [Vec3.normalize, hmagc2]
    ext <;> simp <;> ring
  have hsm : 0 < s * m := mul_pos hspos hmpos
  have hupval : upProvisional f =
      ⟨-(f.x * f.y) / (s * m), (f.x ^ 2 + f.z ^ 2) / (s * m),
        -(f.y * f.z) / (s * m)⟩ := by
    simp only [upProvisional, hc2, hnormc2]
    ext
    · show |(-(f.x * f.y) / (s * m))| * signumR f.x = -(f.x * f.y) / (s * m)
      rw [abs_div, abs_neg, abs_mul, abs_of_pos hsm, abs_of_nonpos hy]
      linear_combination (-f.y / (s * m)) * abs_mul_signumR f.x
    · show |(f.x ^ 2 + f.z ^ 2) / (s * m)| = (f.x ^ 2 + f.z ^ 2) / (s * m)
      exact abs_of_nonneg (div_nonneg (by positivity) hsm.le)
    · show |(-(f.y * f.z) / (s * m))| * signumR f.z = -(f.y * f.z) / (s * m)
      rw [abs_div, abs_neg, abs_mul, abs_of_pos hsm, abs_of_nonpos hy]
      linear_combination (-f.y / (s * m)) * abs_mul_signumR f.z
  constructor
  · rw [hupval]
    simp only [Vec3.dot]
    field_simp
    ring
  · rw [hupval]
    simp only [Vec3.dot]
    field_simp
    linear_combination (-(m ^ 2)) * hss + (-(f.x ^ 2 + f.z ^ 2)) * hmm

/-- The conditional whole-vector negation preserves unit length and
orthogonality to `forward`. -/
theorem upFlipped_unit_orth (f : Vec3) (rotx : ℝ)
    (h1 : (upProvisional f).dot f = 0)
    (h2 : (upProvisional f).dot (upProvisional f) = 1) :
    (upFlipped f rotx).dot f = 0
      ∧ (upFlipped f rotx).dot (upFlipped f rotx) = 1 := by
  simp only [upFlipped]
  split
  · constructor
    · rw [Vec3.smul_dot, h1]
      ring
    · rw [Vec3.smul_dot, Vec3.dot_smul, h2]
      ring
  · exact ⟨h1, h2⟩

/-- C5 (amended): for every update whose resulting pitch is away from the
vertical singularity (`cos ≠ 0`) and has nonpositive sine, and whose entry
forward magnitude is positive, the stored up vector is exactly unit and
exactly orthogonal to the new forward vector. -/
theorem up_unit_and_orthogonal (ctrl : CameraController) (cam : Camera)
    (hm : 0 < (cam.target - cam.eye).magnitude)
    (hcos : Real.cos (ctrl.update_camera cam).rotation.x ≠ 0)
    (hsin : Real.sin (ctrl.update_camera cam).rotation.x ≤ 0) :
    ((ctrl.update_camera cam).up).dot
        ((ctrl.update_camera cam).target - (ctrl.update_camera cam).eye) = 0
      ∧ ((ctrl.update_camera cam).up).magnitude = 1 := by
  set M := (cam.target - cam.eye).magnitude with hMdef
  set X := (ctrl.update_camera cam).rotation.x with hXdef
  set Y := (ctrl.update_camera cam).rotation.y with hYdef
  set f := forwardVec M X Y with hfdef
  have hfx : f.x = M * Real.cos X * Real.cos Y := rfl
  have hfy : f.y = M * Real.sin X := rfl
  have hfz : f.z = M * Real.cos X * Real.sin Y := rfl
  have hM2 : 0 < M ^ 2 := pow_pos hm 2
  have hc2 : 0 < Real.cos X ^ 2 :=
    lt_of_le_of_ne (sq_nonneg _) (Ne.symm (pow_ne_zero 2 hcos))
  have hs : 0 < f.x ^ 2 + f.z ^ 2 := by
    have key : f.x ^ 2 + f.z ^ 2 = M ^ 2 * Real.cos X ^ 2 := by
      rw [hfx, hfz]
      linear_combination (M ^ 2 * Real.cos X ^ 2) * Real.sin_sq_add_cos_sq Y
    rw [key]
    exact mul_pos hM2 hc2
  have hy : f.y ≤ 0 := by
    rw [hfy]
    nlinarith [hm.le, hsin]
  have hfd : 0 < f.dot f := by
    have key : f.dot f = M ^ 2 := by
      simp only [Vec3.dot, hfx, hfy, hfz]
      linear_combination (M ^ 2 * Real.cos X ^ 2) * Real.sin_sq_add_cos_sq Y
        + M ^ 2 * Real.sin_sq_add_cos_sq X
    rw [key]
    exact hM2
  have h1 := upProvisional_unit_orth f hs hy
  have h2 := upFlipped_unit_orth f X h1.1 h1.2
  have h3 := rollRotate_unit_orth f (upFlipped f X)
    (Real.sin (ctrl.update_camera cam).rotation.z)
    (Real.cos (ctrl.update_camera cam).rotation.z)
    hfd h2.1 h2.2 (Real.sin_sq_add_cos_sq _)
  have hup : (ctrl.update_camera cam).up = rollRotate f (upFlipped f X)
      (Real.sin (ctrl.update_camera cam).rotation.z)
      (Real.cos (ctrl.update_camera cam).rotation.z) := rfl
  have hfwd : (ctrl.update_camera cam).target - (ctrl.update_camera cam).eye = f := by
    rw [update_camera_target, update_camera_eye, Vec3.sub_sub_cancel]
  rw [hup, hfwd]
  exact ⟨h3.1, Vec3.magnitude_eq _ zero_le_one (by rw [h3.2]; norm_num)⟩

/-- Witness for C5 (amended) at the orbit-consistent zero-rotation camera. -/
theorem up_unit_and_orthogonal_witness :
    (((ctrlNone 0.05).update_camera camOrbit).up).dot
        (((ctrlNone 0.05).update_camera camOrbit).target
          - ((ctrlNone 0.05).update_camera camOrbit).eye) = 0
      ∧ (((ctrlNone 0.05).update_camera camOrbit).up).magnitude = 1 := by
  have hX : ((ctrlNone 0.05).update_camera camOrbit).rotation.x = 0 := by
    rw [update_camera_rotation]
    simp [ctrlNone, CameraController.new, camOrbit]
  refine up_unit_and_orthogonal (ctrlNone 0.05) camOrbit ?_ ?_ ?_
  · have h2 : (camOrbit.target - camOrbit.eye).magnitude = 2 := by
      apply Vec3.magnitude_eq _ (by norm_num)
      norm_num [camOrbit, Vec3.dot]
    rw [h2]
    norm_num
  · rw [hX, Real.cos_zero]
    norm_num
  · rw [hX, Real.sin_zero]

/-- Exact evaluation of `recalculate_up` at the pitch `π/6` pose: the returned
up vector equals the (non-orthogonal) corrected provisional vector. -/
theorem recalc_at_pitch_sixth :
    recalculate_up ⟨Real.sqrt 3 / 2, 1 / 2, 0⟩ ⟨π / 6, 0, 0⟩
      = ⟨1 / 2, Real.sqrt 3 / 2, 0⟩ := by
  set q := Real.sqrt 3 with hqdef
  have hq : q ^ 2 = 3 := Real.sq_sqrt (by norm_num)
  have hqpos : 0 < q := Real.sqrt_pos.mpr (by norm_num)
  have hqne : q ≠ 0 := ne_of_gt hqpos
  have hc1 : (⟨q / 2, 1 / 2, 0⟩ : Vec3).cross ⟨0, 1, 0⟩ = ⟨0, 0, q / 2⟩ := by
    ext <;> simp [Vec3.cross]
  have hdc1 : (⟨0, 0, q / 2⟩ : Vec3).dot ⟨0, 0, q / 2⟩ = (q / 2) ^ 2 := by
    simp [Vec3.dot]
    ring
  have hmag1 : (⟨0, 0, q / 2⟩ : Vec3).magnitude = q / 2 :=
    Vec3.magnitude_eq _ (by positivity) hdc1
  have hnorm1 : (⟨0, 0, q / 2⟩ : Vec3).normalize = ⟨0, 0, 1⟩ := by
    rw [Vec3.normalize, hmag1]
    ext
    · show 1 / (q / 2) * 0 = 0
      ring
    · show 1 / (q / 2) * 0 = 0
      ring
    · show 1 / (q / 2) * (q / 2) = 1
      field_simp
  have hsgn0 : signumR 0 = 1 := by
    simp [signumR]
  have hsgnq : signumR (q / 2) = 1 := by
    simp [signumR, not_lt.mpr (by positivity : (0 : ℝ) ≤ q / 2)]
  have hright : rightVec ⟨q / 2, 1 / 2, 0⟩ = ⟨0, 0, -1⟩ := by
    simp only [rightVec, hc1, hnorm1]
    ext
    · show |(0 : ℝ)| * signumR (0 : ℝ) = 0
      simp
    · rfl
    · show |(1 : ℝ)| * -signumR (q / 2) = -1
      simp [hsgnq]
  have hc2 : (⟨q / 2, 1 / 2, 0⟩ : Vec3).cross ⟨0, 0, -1⟩ = ⟨-(1 / 2), q / 2, 0⟩ := by
    ext <;> simp [Vec3.cross]
  have hdc2 : (⟨-(1 / 2), q / 2, 0⟩ : Vec3).dot ⟨-(1 / 2), q / 2, 0⟩ = 1 := by
    simp [Vec3.dot]
    linear_combination (1 / 4) * hq
  have hmag2 : (⟨-(1 / 2), q / 2, 0⟩ : Vec3).magnitude = 1 :=
    Vec3.magnitude_eq _ zero_le_one (by rw [hdc2]; norm_num)
  have hnorm2 : (⟨-(1 / 2), q / 2, 0⟩ : Vec3).normalize = ⟨-(1 / 2), q / 2, 0⟩ := by
    rw [Vec3.normalize, hmag2]
    ext <;> simp
  have hup0 : upProvisional ⟨q / 2, 1 / 2, 0⟩ = ⟨1 / 2, q / 2, 0⟩ := by
    simp only [upProvisional, hright, hc2, hnorm2]
    ext
    · show |(-(1 / 2) : ℝ)| * signumR (q / 2) = 1 / 2
      norm_num [hsgnq]
    · show |(q / 2 : ℝ)| = q / 2
      exact abs_of_nonneg (by positivity)
    · show |(0 : ℝ)| * signumR (0 : ℝ) = 0
      simp
  have hrem : remEuclid (π / 6) (2 * π) = π / 6 := by
    rw [remEuclid]
    have h12 : π / 6 / (2 * π) = 1 / 12 := by
      have hpi := Real.pi_ne_zero
      field_simp
      ring
    rw [h12]
    norm_num
  have hflip : ¬ flipCond (π / 6) := by
    simp only [flipCond, hrem]
    rintro (⟨h1, h2⟩ | ⟨h1, h2⟩) <;> nlinarith [Real.pi_pos]
  have hupf : upFlipped ⟨q / 2, 1 / 2, 0⟩ (π / 6) = ⟨1 / 2, q / 2, 0⟩ := by
    simp only [upFlipped]
    rw [if_neg hflip, hup0]
  have hdotvf : (⟨1 / 2, q / 2, 0⟩ : Vec3).dot ⟨q / 2, 1 / 2, 0⟩ = q / 2 := by
    simp [Vec3.dot]
    ring
  have hfd : (⟨q / 2, 1 / 2, 0⟩ : Vec3).dot ⟨q / 2, 1 / 2, 0⟩ = 1 := by
    simp [Vec3.dot]
    linear_combination (1 / 4) * hq
  have horth : (⟨1 / 2, q / 2, 0⟩ : Vec3) - (q / 2) • ⟨q / 2, 1 / 2, 0⟩
      = ⟨-(1 / 4), q / 4, 0⟩ := by
    ext
    · show 1 / 2 - q / 2 * (q / 2) = -(1 / 4)
      linear_combination (-(1 / 4)) * hq
    · show q / 2 - q / 2 * (1 / 2) = q / 4
      ring
    · show 0 - q / 2 * 0 = 0
      ring
  have hw : (⟨q / 2, 1 / 2, 0⟩ : Vec3).cross ⟨-(1 / 4), q / 4, 0⟩ = ⟨0, 0, 1 / 2⟩ := by
    ext
    · show 1 / 2 * 0 - 0 * (q / 4) = 0
      ring
    · show 0 * -(1 / 4) - q / 2 * 0 = 0
      ring
    · show q / 2 * (q / 4) - 1 / 2 * -(1 / 4) = 1 / 2
      linear_combination (1 / 8) * hq
  have hmagor : (⟨-(1 / 4), q / 4, 0⟩ : Vec3).magnitude = 1 / 2 := by
    apply Vec3.magnitude_eq _ (by norm_num)
    simp [Vec3.dot]
    linear_combination (1 / 16) * hq
  have hmagw : (⟨0, 0, (1 : ℝ) / 2⟩ : Vec3).magnitude = 1 / 2 := by
    apply Vec3.magnitude_eq _ (by norm_num)
    simp [Vec3.dot]
    norm_num
  show rollRotate ⟨q / 2, 1 / 2, 0⟩ (upFlipped ⟨q / 2, 1 / 2, 0⟩ (π / 6))
      (Real.sin 0) (Real.cos 0) = ⟨1 / 2, q / 2, 0⟩
  rw [Real.sin_zero, Real.cos_zero, hupf]
  simp only [rollRotate]
  rw [hdotvf, hfd, div_one, horth, hw, hmagor, hmagw]
  ext
  · show 1 / 2 * (1 / (1 / 2) * -(1 / 4) + 0 / (1 / 2) * 0) + q / 2 * (q / 2) = 1 / 2
    norm_num
    linear_combination (1 / 4) * hq
  · show 1 / 2 * (1 / (1 / 2) * (q / 4) + 0 / (1 / 2) * 0) + q / 2 * (1 / 2) = q / 2
    ring
  · show 1 / 2 * (1 / (1 / 2) * 0 + 0 / (1 / 2) * (1 / 2)) + q / 2 * 0 = 0
    ring

/-- C5 as stated is refuted at the orbit pose with pitch `π/6`: after an
intent-free update the recomputed up vector fails orthogonality to forward by
`√3/2`, far beyond the claimed `1e-4` tolerance (the up vector is still unit). -/
theorem up_not_orthogonal_at_pitch_pi_div_six :
    ¬ (|(((ctrlNone 0.05).update_camera camPitchSixth).up).dot
          (((ctrlNone 0.05).update_camera camPitchSixth).target
            - ((ctrlNone 0.05).update_camera camPitchSixth).eye)| ≤ 1 / 10000) := by
  have hq : Real.sqrt 3 ^ 2 = 3 := Real.sq_sqrt (by norm_num)
  have hq1 : 1 ≤ Real.sqrt 3 := by
    nlinarith [Real.sqrt_nonneg 3, hq]
  have hm : (camPitchSixth.target - camPitchSixth.eye).magnitude = 1 := by
    apply Vec3.magnitude_eq _ zero_le_one
    simp [camPitchSixth, Vec3.dot]
    linear_combination (1 / 4) * hq
  have hrot : ((ctrlNone 0.05).update_camera camPitchSixth).rotation = ⟨π / 6, 0, 0⟩ := by
    rw [update_camera_rotation]
    simp [ctrlNone, CameraController.new, camPitchSixth]
  have hf : forwardVec 1 (π / 6) 0 = ⟨Real.sqrt 3 / 2, 1 / 2, 0⟩ := by
    ext <;> simp [forwardVec, Real.cos_pi_div_six, Real.sin_pi_div_six]
  have hup : ((ctrlNone 0.05).update_camera camPitchSixth).up
      = ⟨1 / 2, Real.sqrt 3 / 2, 0⟩ := by
    rw [update_camera_up, hm, hrot]
    show recalculate_up (forwardVec 1 (π / 6) 0) ⟨π / 6, 0, 0⟩ = _
    rw [hf, recalc_at_pitch_sixth]
  have hfwd : ((ctrlNone 0.05).update_camera camPitchSixth).target
      - ((ctrlNone 0.05).update_camera camPitchSixth).eye
      = ⟨Real.sqrt 3 / 2, 1 / 2, 0⟩ := by
    rw [update_camera_target, update_camera_eye, Vec3.sub_sub_cancel, hm, hrot]
    show forwardVec 1 (π / 6) 0 = _
    exact hf
  rw [hup, hfwd]
  have hdot : (⟨1 / 2, Real.sqrt 3 / 2, 0⟩ : Vec3).dot ⟨Real.sqrt 3 / 2, 1 / 2, 0⟩
      = Real.sqrt 3 / 2 := by
    simp [Vec3.dot]
    ring
  rw [hdot, abs_of_nonneg (by positivity)]
  intro hle
  linarith

end Renderer
